import Mathlib

/-!
Verification of the `ConsistentHashRing` class (src/index.ts of the
consistent-hashing repository).

The embedding translates the class into pure Lean functions:

* `RingEntry` mirrors `{ hash: BigInt, vnode: string, node: string }`;
  ring coordinates are modelled as `Nat` (the source takes the first 16 hex
  characters of a digest, a value below 2^64, and only ever compares them).
* The node registry `Map<string, Set<string>>` is modelled as an association
  list `NodeMap` in insertion order, which is how a JavaScript `Map` iterates.
* The hash-coordinate adapter `_hashToBigInt` (a cryptographic digest chosen
  by the `hashFn` option, out of scope per the spec) is modelled as an
  injected pure function `hashFn : String → ℕ` stored in the state.
* `addNode` throws before it performs any mutation, so it is modelled as
  `Except String ConsistentHashRing`: the error branch corresponds to the
  thrown exception with the object left untouched.
* JavaScript numeric details that the source relies on: `Math.round x` is
  `⌊x + 1/2⌋` (half-up rounding), modelled by `jsRound` over `ℚ`;
  `Array.prototype.sort` is stable, modelled by `List.mergeSort` with the
  comparator's `≤`; `Math.floor ((lo + hi) / 2)` on non-negative operands is
  integer division.
-/

/-- One placement entry of the ring: `{ hash, vnode, node }` from the source. -/
structure RingEntry where
  hash : ℕ
  vnode : String
  node : String
deriving DecidableEq, Repr

instance : Inhabited RingEntry := ⟨⟨0, "", ""⟩⟩

/-- The node registry `nodeMap : Map<string, Set<string>>`, as an association
list from physical node id to its virtual-node id set (kept as a list). -/
abbrev NodeMap := List (String × List String)

/-- `Map.has` on the modelled registry. -/
def mapHas (m : NodeMap) (k : String) : Bool :=
  (m.find? (fun p => p.1 == k)).isSome

/-- `Map.get` on the modelled registry (`none` for JavaScript `undefined`). -/
def mapGet (m : NodeMap) (k : String) : Option (List String) :=
  (m.find? (fun p => p.1 == k)).map (fun p => p.2)

/-- `Map.set` on the modelled registry: replace the value under an existing
key, otherwise append the new key at the end (JavaScript `Map` order). -/
def mapSet (m : NodeMap) (k : String) (v : List String) : NodeMap :=
  if mapHas m k then m.map (fun p => if p.1 == k then (k, v) else p)
  else m ++ [(k, v)]

/-- `Map.delete` on the modelled registry. -/
def mapDelete (m : NodeMap) (k : String) : NodeMap :=
  m.filter (fun p => p.1 != k)

/-- JavaScript `Math.round`: round half toward positive infinity. -/
def jsRound (q : ℚ) : ℤ := ⌊q + 1/2⌋

/-- State of a `ConsistentHashRing` instance.  `hashFn` stands for the
coordinate adapter `_hashToBigInt` built from the configured digest name. -/
structure ConsistentHashRing where
  replicas : ℕ
  hashFn : String → ℕ
  ring : List RingEntry
  nodeMap : NodeMap

/-- The constructor: `replicas` defaults to 100 in the source; the ring and
the registry start empty. -/
def ConsistentHashRing.init (replicas : ℕ) (hashFn : String → ℕ) :
    ConsistentHashRing :=
  { replicas := replicas, hashFn := hashFn, ring := [], nodeMap := [] }

/-- `_hashToBigInt`: apply the injected coordinate adapter. -/
def hashToBigInt (st : ConsistentHashRing) (input : String) : ℕ :=
  st.hashFn input

/-- The `while (lo <= hi)` loop of `_binarySearch`.  `lo` and `hi` are
integers because `hi` becomes `mid - 1` and may reach `-1`. -/
def binarySearchLoop (ring : List RingEntry) (hash : ℕ) (lo hi : ℤ) : ℤ :=
  if h : lo ≤ hi then
    let mid : ℤ := (lo + hi) / 2
    if (ring.getD mid.toNat default).hash = hash then mid
    else if (ring.getD mid.toNat default).hash < hash then
      binarySearchLoop ring hash (mid + 1) hi
    else
      binarySearchLoop ring hash lo (mid - 1)
  else lo
termination_by (hi + 1 - lo).toNat
decreasing_by
all_goals omega

/-- `_binarySearch(hash)`: `-1` on an empty ring; `0` when the hash is at or
below the first coordinate; `0` (wrap-around) when it is above the last
coordinate; otherwise the binary-search loop over `[0, length - 1]`. -/
def binarySearch (ring : List RingEntry) (hash : ℕ) : ℤ :=
  if ring.length = 0 then -1
  else if hash ≤ (ring.getD 0 default).hash then 0
  else if (ring.getD (ring.length - 1) default).hash < hash then 0
  else binarySearchLoop ring hash 0 ((ring.length : ℤ) - 1)

/-- The virtual-node identifier `` `${nodeId}#${i}` ``. -/
def vnodeName (nodeId : String) (i : ℕ) : String :=
  nodeId ++ "#" ++ toString i

/-- `Math.max(1, Math.round(this.replicas * weight))` as a natural number. -/
def replicasForNode (replicas : ℕ) (weight : ℚ) : ℕ :=
  (max 1 (jsRound ((replicas : ℚ) * weight))).toNat

/-- The sort comparator `(a, b) => a.hash < b.hash ? -1 : a.hash > b.hash ? 1 : 0`
orders entries by ascending hash. -/
def ringLe (a b : RingEntry) : Bool :=
  decide (a.hash ≤ b.hash)

/-- `addNode(nodeId, weight)` (`weight` defaults to 1 at call sites): throw on
a duplicate id, otherwise push one entry per virtual node and re-sort the
ring, then register the virtual-id set.  The throw happens before any
mutation, so the error branch returns no state. -/
def addNode (st : ConsistentHashRing) (nodeId : String) (weight : ℚ) :
    Except String ConsistentHashRing :=
  if mapHas st.nodeMap nodeId then
    Except.error ("Node " ++ nodeId ++ " already exists")
  else
    let rc := replicasForNode st.replicas weight
    let vnodeSet := (List.range rc).map (fun i => vnodeName nodeId i)
    let newEntries := vnodeSet.map
      (fun v => { hash := hashToBigInt st v, vnode := v, node := nodeId : RingEntry })
    Except.ok { st with
      ring := (st.ring ++ newEntries).mergeSort ringLe
      nodeMap := mapSet st.nodeMap nodeId vnodeSet }

/-- `removeNode(nodeId)`: `false` and no change when the id is unknown;
otherwise filter out the node's entries, delete its registry key, return
`true`. -/
def removeNode (st : ConsistentHashRing) (nodeId : String) :
    Bool × ConsistentHashRing :=
  match mapGet st.nodeMap nodeId with
  | none => (false, st)
  | some _ =>
    (true, { st with
      ring := st.ring.filter (fun e => e.node != nodeId)
      nodeMap := mapDelete st.nodeMap nodeId })

/-- `getNode(key)`: `null` on an empty ring, otherwise the node of the entry
at the owner index found by `_binarySearch`. -/
def getNode (st : ConsistentHashRing) (key : String) : Option String :=
  if st.ring.length = 0 then none
  else
    let h := hashToBigInt st key
    let idx := binarySearch st.ring h
    if idx = -1 then none
    else some ((st.ring.getD idx.toNat default).node)

/-- The `while (result.length < count)` loop of `getNodes`.  The fuel
argument counts the steps left before `i` returns to the start index: the
loop increments `i` modulo the ring length and breaks when it is back at
`idx`, which is after exactly `ring.length` iterations. -/
def getNodesGo (ring : List RingEntry) (count : ℤ) :
    ℕ → ℕ → List String → List String
  | 0, _, result => result
  | Nat.succ fuel, i, result =>
    if (result.length : ℤ) < count then
      let node := (ring.getD i default).node
      let result2 := if node ∈ result then result else result ++ [node]
      getNodesGo ring count fuel ((i + 1) % ring.length) result2
    else result

/-- `getNodes(key, count)` (`count` defaults to 1 at call sites): up to
`count` distinct physical nodes clockwise from the key's owner index. -/
def getNodes (st : ConsistentHashRing) (key : String) (count : ℤ) :
    List String :=
  if st.ring.length = 0 ∨ count ≤ 0 then []
  else
    let h := hashToBigInt st key
    let idx := binarySearch st.ring h
    if idx = -1 then []
    else getNodesGo st.ring count st.ring.length idx.toNat []

/-- One record of `getRingSnapshot()`: the coordinate rendered as a decimal
string, the virtual id and the node id. -/
structure RingSnapshot where
  hash : String
  vnode : String
  node : String
deriving DecidableEq, Repr

/-- `getRingSnapshot()`: a ring-order copy of the placement state. -/
def getRingSnapshot (st : ConsistentHashRing) : List RingSnapshot :=
  st.ring.map (fun e => { hash := toString e.hash, vnode := e.vnode, node := e.node })

/-- The clockwise sequence of owning nodes of `fuel` consecutive ring entries
starting at index `i` and wrapping modulo the ring length: with `fuel` the
ring length, this is the order in which the spec's walk (§4.2) visits the
entries starting from an owner index. -/
def ringWalk (ring : List RingEntry) : ℕ → ℕ → List String
  | _, 0 => []
  | i, Nat.succ fuel =>
    (ring.getD i default).node :: ringWalk ring ((i + 1) % ring.length) fuel

/-- Modelled from the spec (§4.2, `walkDistinctOwners`): scan a clockwise
node sequence, collecting each owning node not yet collected, until `count`
distinct nodes are collected or the sequence — one full revolution — is
exhausted (in which case fewer than `count` results are returned). -/
def walkDistinctOwners (count : ℕ) : List String → List String → List String
  | acc, [] => acc
  | acc, n :: rest =>
    if acc.length < count then
      if n ∈ acc then walkDistinctOwners count acc rest
      else walkDistinctOwners count (acc ++ [n]) rest
    else acc

/-- The states reachable from a freshly constructed ring by `addNode` and
`removeNode`.  A failed `addNode` (duplicate id) throws before mutating and
therefore does not change the state, so only successful calls transition. -/
inductive Reachable : ConsistentHashRing → Prop where
  | init (replicas : ℕ) (hashFn : String → ℕ) :
      Reachable (ConsistentHashRing.init replicas hashFn)
  | add (s s2 : ConsistentHashRing) (nodeId : String) (weight : ℚ) :
      Reachable s → addNode s nodeId weight = Except.ok s2 → Reachable s2
  | remove (s : ConsistentHashRing) (nodeId : String) :
      Reachable s → Reachable (removeNode s nodeId).2

/-- The ring is sorted non-decreasing by coordinate. -/
def HashSorted (ring : List RingEntry) : Prop :=
  List.Pairwise (fun a b => a.hash ≤ b.hash) ring

/-- The ring is sorted strictly increasing by coordinate (no duplicate
coordinates). -/
def HashStrictSorted (ring : List RingEntry) : Prop :=
  List.Pairwise (fun a b => a.hash < b.hash) ring

instance (ring : List RingEntry) : Decidable (HashSorted ring) := by
  unfold HashSorted; infer_instance

instance (ring : List RingEntry) : Decidable (HashStrictSorted ring) := by
  unfold HashStrictSorted; infer_instance

/-- The coordinate stored at index `i` of the ring (default entry out of range). -/
def hashAt (ring : List RingEntry) (i : ℕ) : ℕ :=
  (ring.getD i default).hash

theorem mapHas_iff {m : NodeMap} {k : String} :
    mapHas m k = true ↔ ∃ p ∈ m, p.1 = k := by
  simp [mapHas, List.find?_isSome]

theorem mapHas_eq_false_iff {m : NodeMap} {k : String} :
    mapHas m k = false ↔ ∀ p ∈ m, p.1 ≠ k := by
  rw [← Bool.not_eq_true, mapHas_iff]
  push_neg
  rfl

theorem mapGet_eq_none_iff {m : NodeMap} {k : String} :
    mapGet m k = none ↔ mapHas m k = false := by
  rw [mapGet, mapHas]
  cases m.find? (fun p => p.1 == k) <;> simp

theorem mapSet_of_fresh {m : NodeMap} {k : String} (v : List String)
    (h : mapHas m k = false) : mapSet m k v = m ++ [(k, v)] := by
  simp [mapSet, h]

theorem mapGet_mapSet_fresh {m : NodeMap} {k : String} (v : List String)
    (h : mapHas m k = false) : mapGet (mapSet m k v) k = some v := by
  rw [mapSet_of_fresh v h]
  have hall : ∀ p ∈ m, ¬(p.1 == k) = true := by
    intro p hp
    have := mapHas_eq_false_iff.mp h p hp
    simpa using this
  simp [mapGet, List.find?_append, List.find?_eq_none.mpr hall]

theorem mapHas_mapDelete {m : NodeMap} {k : String} :
    mapHas (mapDelete m k) k = false := by
  rw [mapHas_eq_false_iff]
  intro p hp
  rw [mapDelete, List.mem_filter] at hp
  simpa using hp.2

theorem mem_mapDelete_iff {m : NodeMap} {k : String} {p : String × List String} :
    p ∈ mapDelete m k ↔ p ∈ m ∧ p.1 ≠ k := by
  rw [mapDelete, List.mem_filter]
  simp

theorem hashAt_mono {ring : List RingEntry} (hsorted : HashSorted ring)
    {i j : ℕ} (hij : i ≤ j) (hj : j < ring.length) :
    hashAt ring i ≤ hashAt ring j := by
  rcases eq_or_lt_of_le hij with rfl | hlt
  · exact le_refl _
  · have hi : i < ring.length := lt_trans hlt hj
    have := (List.pairwise_iff_getElem.mp hsorted) i j hi hj hlt
    unfold hashAt
    rw [List.getD_eq_getElem _ _ hi, List.getD_eq_getElem _ _ hj]
    exact this

theorem hashAt_strict_mono {ring : List RingEntry} (hsorted : HashStrictSorted ring)
    {i j : ℕ} (hij : i < j) (hj : j < ring.length) :
    hashAt ring i < hashAt ring j := by
  have hi : i < ring.length := lt_trans hij hj
  have := (List.pairwise_iff_getElem.mp hsorted) i j hi hj hij
  unfold hashAt
  rw [List.getD_eq_getElem _ _ hi, List.getD_eq_getElem _ _ hj]
  exact this

theorem binarySearchLoop_step (ring : List RingEntry) (hash : ℕ) (lo hi : ℤ) :
    binarySearchLoop ring hash lo hi =
      if lo ≤ hi then
        if (ring.getD ((lo + hi) / 2).toNat default).hash = hash then (lo + hi) / 2
        else if (ring.getD ((lo + hi) / 2).toNat default).hash < hash then
          binarySearchLoop ring hash ((lo + hi) / 2 + 1) hi
        else binarySearchLoop ring hash lo ((lo + hi) / 2 - 1)
      else lo := by
  rw [binarySearchLoop]
  by_cases h : lo ≤ hi <;> simp [h]

theorem binarySearchLoop_bounds (ring : List RingEntry) (hash : ℕ)
    (hlen : 0 < ring.length) (hlast : hash ≤ hashAt ring (ring.length - 1)) :
    ∀ fuel : ℕ, ∀ lo hi : ℤ, (hi + 1 - lo).toNat ≤ fuel →
      0 ≤ lo → lo ≤ (ring.length : ℤ) - 1 → hi ≤ (ring.length : ℤ) - 1 →
      0 ≤ binarySearchLoop ring hash lo hi ∧
        binarySearchLoop ring hash lo hi ≤ (ring.length : ℤ) - 1 := by
  intro fuel
  induction fuel with
  | zero =>
    intro lo hi hfuel hlo hlol hhi
    have hexit : ¬ lo ≤ hi := by omega
    rw [binarySearchLoop_step, if_neg hexit]
    omega
  | succ n ih =>
    intro lo hi hfuel hlo hlol hhi
    by_cases hcond : lo ≤ hi
    · rw [binarySearchLoop_step, if_pos hcond]
      set mid := (lo + hi) / 2 with hmiddef
      have hmid1 : lo ≤ mid := by omega
      have hmid2 : mid ≤ hi := by omega
      by_cases heq : (ring.getD mid.toNat default).hash = hash
      · rw [if_pos heq]
        omega
      · rw [if_neg heq]
        by_cases hlt : (ring.getD mid.toNat default).hash < hash
        · rw [if_pos hlt]
          have hlt2 : hashAt ring mid.toNat < hash := hlt
          have hne2 : mid.toNat ≠ ring.length - 1 := by
            intro hEq
            rw [hEq] at hlt2
            omega
          exact ih (mid + 1) hi (by omega) (by omega) (by omega) hhi
        · rw [if_neg hlt]
          exact ih lo (mid - 1) (by omega) hlo hlol (by omega)
    · rw [binarySearchLoop_step, if_neg hcond]
      omega

theorem binarySearchLoop_spec (ring : List RingEntry) (hash : ℕ)
    (hsorted : HashSorted ring) (hlen : 0 < ring.length)
    (hlast : hash ≤ hashAt ring (ring.length - 1)) :
    ∀ fuel : ℕ, ∀ lo hi : ℤ, (hi + 1 - lo).toNat ≤ fuel →
      0 ≤ lo → lo ≤ hi + 1 → hi ≤ (ring.length : ℤ) - 1 →
      (∀ j : ℕ, (j : ℤ) < lo → hashAt ring j < hash) →
      (∀ j : ℕ, hi < (j : ℤ) → j < ring.length → hash < hashAt ring j) →
      ∃ r : ℕ, binarySearchLoop ring hash lo hi = (r : ℤ) ∧ r < ring.length ∧
        (hashAt ring r = hash ∨
          (hash < hashAt ring r ∧ ∀ j < r, hashAt ring j < hash)) := by
  intro fuel
  induction fuel with
  | zero =>
    intro lo hi hfuel hlo hlohi hhi hA hB
    have hexit : ¬ lo ≤ hi := by omega
    rw [binarySearchLoop_step, if_neg hexit]
    have hlolt : lo < (ring.length : ℤ) := by
      by_contra hge
      push_neg at hge
      have h1 := hA (ring.length - 1) (by omega)
      omega
    refine ⟨lo.toNat, by omega, by omega, Or.inr ⟨hB lo.toNat (by omega) (by omega), ?_⟩⟩
    intro j hj
    exact hA j (by omega)
  | succ n ih =>
    intro lo hi hfuel hlo hlohi hhi hA hB
    by_cases hcond : lo ≤ hi
    · rw [binarySearchLoop_step, if_pos hcond]
      set mid := (lo + hi) / 2 with hmiddef
      have hmid1 : lo ≤ mid := by omega
      have hmid2 : mid ≤ hi := by omega
      have hmidlt : mid.toNat < ring.length := by omega
      by_cases heq : (ring.getD mid.toNat default).hash = hash
      · rw [if_pos heq]
        exact ⟨mid.toNat, by omega, hmidlt, Or.inl heq⟩
      · rw [if_neg heq]
        by_cases hlt : (ring.getD mid.toNat default).hash < hash
        · rw [if_pos hlt]
          have hlt2 : hashAt ring mid.toNat < hash := hlt
          refine ih (mid + 1) hi (by omega) (by omega) (by omega) hhi ?_ hB
          intro j hj
          have hjle : j ≤ mid.toNat := by omega
          have h2 := hashAt_mono hsorted hjle hmidlt
          omega
        · rw [if_neg hlt]
          have hgt2 : hash < hashAt ring mid.toNat := by
            have : ¬ hashAt ring mid.toNat < hash := hlt
            have : ¬ hashAt ring mid.toNat = hash := heq
            omega
          refine ih lo (mid - 1) (by omega) hlo (by omega) (by omega) hA ?_
          intro j hj1 hj2
          have hjge : mid.toNat ≤ j := by omega
          have h2 := hashAt_mono hsorted hjge hj2
          omega
    · rw [binarySearchLoop_step, if_neg hcond]
      have hlolt : lo < (ring.length : ℤ) := by
        by_contra hge
        push_neg at hge
        have h1 := hA (ring.length - 1) (by omega)
        omega
      refine ⟨lo.toNat, by omega, by omega, Or.inr ⟨hB lo.toNat (by omega) (by omega), ?_⟩⟩
      intro j hj
      exact hA j (by omega)

theorem binarySearch_bounds (ring : List RingEntry) (hash : ℕ) (hne : ring ≠ []) :
    0 ≤ binarySearch ring hash ∧ binarySearch ring hash ≤ (ring.length : ℤ) - 1 := by
  have hlen : 0 < ring.length := List.length_pos.mpr hne
  rw [binarySearch, if_neg (by omega)]
  by_cases h0 : hash ≤ (ring.getD 0 default).hash
  · rw [if_pos h0]
    omega
  · rw [if_neg h0]
    by_cases hw : (ring.getD (ring.length - 1) default).hash < hash
    · rw [if_pos hw]
      omega
    · rw [if_neg hw]
      have hlast : hash ≤ hashAt ring (ring.length - 1) := by
        have : ¬ hashAt ring (ring.length - 1) < hash := hw
        omega
      exact binarySearchLoop_bounds ring hash hlen hlast _ 0 ((ring.length : ℤ) - 1)
        le_rfl (by omega) (by omega) (by omega)

theorem binarySearch_toNat_lt (ring : List RingEntry) (hash : ℕ) (hne : ring ≠ []) :
    (binarySearch ring hash).toNat < ring.length := by
  have h1 := binarySearch_bounds ring hash hne
  have hlen : 0 < ring.length := List.length_pos.mpr hne
  omega

theorem getD_mem_of_lt {ring : List RingEntry} {i : ℕ} (h : i < ring.length) :
    ring.getD i default ∈ ring := by
  rw [List.getD_eq_getElem _ _ h]
  exact List.getElem_mem h

/-- The batch of placement entries `addNode` pushes for a node. -/
def newRingEntries (st : ConsistentHashRing) (nodeId : String) (w : ℚ) :
    List RingEntry :=
  (List.range (replicasForNode st.replicas w)).map
    (fun i => { hash := st.hashFn (vnodeName nodeId i), vnode := vnodeName nodeId i,
                node := nodeId })

theorem hashSorted_mergeSort (l : List RingEntry) :
    HashSorted (l.mergeSort ringLe) := by
  have h := @List.sorted_mergeSort RingEntry ringLe
    (fun a b c hab hbc => by
      simp only [ringLe, decide_eq_true_eq] at hab hbc ⊢
      omega)
    (fun a b => by
      simp only [ringLe, Bool.or_eq_true, decide_eq_true_eq]
      omega)
    l
  exact h.imp (fun hab => by simpa [ringLe] using hab)

theorem one_le_replicasForNode (replicas : ℕ) (w : ℚ) :
    1 ≤ replicasForNode replicas w := by
  unfold replicasForNode
  have h := le_max_left 1 (jsRound ((replicas : ℚ) * w))
  omega

theorem addNode_ok (st : ConsistentHashRing) (nodeId : String) (w : ℚ)
    (hfresh : mapHas st.nodeMap nodeId = false) :
    addNode st nodeId w = Except.ok
      { replicas := st.replicas
        hashFn := st.hashFn
        ring := (st.ring ++ newRingEntries st nodeId w).mergeSort ringLe
        nodeMap := mapSet st.nodeMap nodeId
          ((List.range (replicasForNode st.replicas w)).map (vnodeName nodeId)) } := by
  rw [addNode, if_neg (by rw [hfresh]; exact Bool.false_ne_true)]
  simp [newRingEntries, hashToBigInt, List.map_map, Function.comp_def]

theorem addNode_error (st : ConsistentHashRing) (nodeId : String) (w : ℚ)
    (hdup : mapHas st.nodeMap nodeId = true) :
    addNode st nodeId w = Except.error ("Node " ++ nodeId ++ " already exists") := by
  rw [addNode, if_pos hdup]

theorem removeNode_of_none {st : ConsistentHashRing} {nodeId : String}
    (h : mapGet st.nodeMap nodeId = none) :
    removeNode st nodeId = (false, st) := by
  rw [removeNode, h]

theorem removeNode_of_some {st : ConsistentHashRing} {nodeId : String}
    {v : List String} (h : mapGet st.nodeMap nodeId = some v) :
    removeNode st nodeId = (true,
      { st with ring := st.ring.filter (fun e => e.node != nodeId)
                nodeMap := mapDelete st.nodeMap nodeId }) := by
  rw [removeNode, h]

/-- The state invariant maintained by every mutation: the ring is sorted by
coordinate, the distinct node ids of the ring are exactly the registry keys,
and the registry keys are unique. -/
def StateInv (s : ConsistentHashRing) : Prop :=
  HashSorted s.ring ∧
  (∀ n : String, (∃ e ∈ s.ring, e.node = n) ↔ (∃ p ∈ s.nodeMap, p.1 = n)) ∧
  (s.nodeMap.map (fun p => p.1)).Nodup

theorem mem_newRingEntries_iff {st : ConsistentHashRing} {nodeId : String}
    {w : ℚ} {n : String} :
    (∃ e ∈ newRingEntries st nodeId w, e.node = n) ↔ n = nodeId := by
  constructor
  · rintro ⟨e, he, rfl⟩
    rw [newRingEntries, List.mem_map] at he
    obtain ⟨i, _, rfl⟩ := he
    rfl
  · intro h
    refine ⟨{ hash := st.hashFn (vnodeName nodeId 0), vnode := vnodeName nodeId 0,
              node := nodeId }, ?_, h.symm⟩
    rw [newRingEntries, List.mem_map]
    exact ⟨0, List.mem_range.mpr (one_le_replicasForNode st.replicas w), rfl⟩

theorem inv_addNode {s s2 : ConsistentHashRing} {nodeId : String} {w : ℚ}
    (hinv : StateInv s) (hok : addNode s nodeId w = Except.ok s2) : StateInv s2 := by
  obtain ⟨hsort, hiff, hnd⟩ := hinv
  by_cases hfresh : mapHas s.nodeMap nodeId
  · rw [addNode_error s nodeId w hfresh] at hok
    cases hok
  · rw [Bool.not_eq_true] at hfresh
    rw [addNode_ok s nodeId w hfresh] at hok
    cases hok
    have hnotkey : ∀ p ∈ s.nodeMap, p.1 ≠ nodeId := mapHas_eq_false_iff.mp hfresh
    refine ⟨hashSorted_mergeSort _, ?_, ?_⟩
    · intro n
      have hperm := (List.mergeSort_perm (s.ring ++ newRingEntries s nodeId w) ringLe)
      constructor
      · rintro ⟨e, he, rfl⟩
        rw [hperm.mem_iff, List.mem_append] at he
        rcases he with he | he
        · obtain ⟨p, hp, hp1⟩ := (hiff e.node).mp ⟨e, he, rfl⟩
          rw [mapSet_of_fresh _ hfresh]
          exact ⟨p, List.mem_append_left _ hp, hp1⟩
        · have : e.node = nodeId := mem_newRingEntries_iff.mp ⟨e, he, rfl⟩
          rw [mapSet_of_fresh _ hfresh]
          exact ⟨(nodeId, _), List.mem_append_right _ (List.mem_singleton_self _), by rw [this]⟩
      · rintro ⟨p, hp, rfl⟩
        rw [mapSet_of_fresh _ hfresh, List.mem_append] at hp
        rcases hp with hp | hp
        · obtain ⟨e, he, he1⟩ := (hiff p.1).mpr ⟨p, hp, rfl⟩
          exact ⟨e, by rw [hperm.mem_iff, List.mem_append]; exact Or.inl he, he1⟩
        · rw [List.mem_singleton] at hp
          obtain ⟨e, he, he1⟩ := mem_newRingEntries_iff.mpr (show p.1 = nodeId by rw [hp])
          exact ⟨e, by rw [hperm.mem_iff, List.mem_append]; exact Or.inr he, he1⟩
    · rw [mapSet_of_fresh _ hfresh, List.map_append]
      rw [List.nodup_append]
      refine ⟨hnd, List.nodup_singleton _, ?_⟩
      intro a ha hb
      rw [List.mem_map] at ha
      obtain ⟨p, hp, rfl⟩ := ha
      simp only [List.map_cons, List.map_nil, List.mem_singleton] at hb
      exact hnotkey p hp hb

theorem inv_removeNode {s : ConsistentHashRing} (nodeId : String)
    (hinv : StateInv s) : StateInv (removeNode s nodeId).2 := by
  obtain ⟨hsort, hiff, hnd⟩ := hinv
  cases hget : mapGet s.nodeMap nodeId with
  | none =>
    rw [removeNode_of_none hget]
    exact ⟨hsort, hiff, hnd⟩
  | some v =>
    rw [removeNode_of_some hget]
    refine ⟨?_, ?_, ?_⟩
    · unfold HashSorted at hsort ⊢
      exact List.Pairwise.filter _ hsort
    · intro n
      by_cases hn : n = nodeId
      · subst hn
        constructor
        · rintro ⟨e, he, rfl⟩
          rw [List.mem_filter] at he
          exact absurd he.2 (by simp)
        · rintro ⟨p, hp, rfl⟩
          rw [mem_mapDelete_iff] at hp
          exact absurd rfl hp.2
      · constructor
        · rintro ⟨e, he, rfl⟩
          rw [List.mem_filter] at he
          obtain ⟨p, hp, hp1⟩ := (hiff e.node).mp ⟨e, he.1, rfl⟩
          refine ⟨p, mem_mapDelete_iff.mpr ⟨hp, ?_⟩, hp1⟩
          rw [hp1]
          exact hn
        · rintro ⟨p, hp, rfl⟩
          rw [mem_mapDelete_iff] at hp
          obtain ⟨e, he, he1⟩ := (hiff p.1).mpr ⟨p, hp.1, rfl⟩
          refine ⟨e, List.mem_filter.mpr ⟨he, ?_⟩, he1⟩
          simp only [bne_iff_ne, ne_eq]
          rw [he1]
          exact hn
    · exact List.Nodup.sublist ((List.filter_sublist _).map _) hnd

theorem reachable_inv {s : ConsistentHashRing} (h : Reachable s) : StateInv s := by
  induction h with
  | init r f =>
    refine ⟨List.Pairwise.nil, ?_, List.Pairwise.nil⟩
    intro n
    simp [ConsistentHashRing.init]
  | add s s2 nodeId w hr hok ih => exact inv_addNode ih hok
  | remove s nodeId hr ih => exact inv_removeNode nodeId ih

theorem getNodes_pos (st : ConsistentHashRing) (key : String) (count : ℤ)
    (hne : st.ring ≠ []) (hc : ¬ count ≤ 0) :
    getNodes st key count =
      getNodesGo st.ring count st.ring.length
        (binarySearch st.ring (hashToBigInt st key)).toNat [] := by
  have hlen : 0 < st.ring.length := List.length_pos.mpr hne
  have hidx := (binarySearch_bounds st.ring (hashToBigInt st key) hne).1
  simp only [getNodes]
  rw [if_neg (by push_neg; exact ⟨by omega, by omega⟩), if_neg (by omega)]

theorem getNode_some (st : ConsistentHashRing) (key : String)
    (hne : st.ring ≠ []) :
    getNode st key = some
      ((st.ring.getD (binarySearch st.ring (hashToBigInt st key)).toNat
        default).node) := by
  have hlen : 0 < st.ring.length := List.length_pos.mpr hne
  have hidx := (binarySearch_bounds st.ring (hashToBigInt st key) hne).1
  simp only [getNode]
  rw [if_neg (by omega), if_neg (by omega)]

theorem getNodesGo_nodup (ring : List RingEntry) (count : ℤ) :
    ∀ fuel i acc, acc.Nodup → (getNodesGo ring count fuel i acc).Nodup := by
  intro fuel
  induction fuel with
  | zero => intro i acc h; exact h
  | succ n ih =>
    intro i acc h
    simp only [getNodesGo]
    by_cases hlt : (acc.length : ℤ) < count
    · rw [if_pos hlt]
      by_cases hmem : (ring.getD i default).node ∈ acc
      · rw [if_pos hmem]
        exact ih _ acc h
      · rw [if_neg hmem]
        refine ih _ _ ?_
        rw [List.nodup_append]
        refine ⟨h, List.nodup_singleton _, ?_⟩
        intro a ha hb
        rw [List.mem_singleton] at hb
        subst hb
        exact hmem ha
    · rw [if_neg hlt]
      exact h

theorem getNodesGo_length (ring : List RingEntry) (count : ℤ) :
    ∀ fuel i acc,
      (getNodesGo ring count fuel i acc).length ≤ max acc.length count.toNat := by
  intro fuel
  induction fuel with
  | zero => intro i acc; exact le_max_left _ _
  | succ n ih =>
    intro i acc
    simp only [getNodesGo]
    by_cases hlt : (acc.length : ℤ) < count
    · rw [if_pos hlt]
      have h2 := ih ((i + 1) % ring.length)
        (if (ring.getD i default).node ∈ acc then acc else acc ++ [(ring.getD i default).node])
      have h3 : (if (ring.getD i default).node ∈ acc then acc
          else acc ++ [(ring.getD i default).node]).length ≤ count.toNat := by
        by_cases hmem : (ring.getD i default).node ∈ acc
        · rw [if_pos hmem]; omega
        · rw [if_neg hmem, List.length_append, List.length_singleton]; omega
      omega
    · rw [if_neg hlt]
      exact le_max_left _ _

theorem getNodesGo_mem (ring : List RingEntry) (count : ℤ)
    (hlen : 0 < ring.length) :
    ∀ fuel i acc, i < ring.length →
      ∀ n ∈ getNodesGo ring count fuel i acc,
        n ∈ acc ∨ ∃ e ∈ ring, e.node = n := by
  intro fuel
  induction fuel with
  | zero => intro i acc _ n hn; exact Or.inl hn
  | succ m ih =>
    intro i acc hi n hn
    simp only [getNodesGo] at hn
    by_cases hlt : (acc.length : ℤ) < count
    · rw [if_pos hlt] at hn
      have h2 := ih ((i + 1) % ring.length) _ (Nat.mod_lt _ hlen) n hn
      rcases h2 with h2 | h2
      · by_cases hmem : (ring.getD i default).node ∈ acc
        · rw [if_pos hmem] at h2
          exact Or.inl h2
        · rw [if_neg hmem, List.mem_append, List.mem_singleton] at h2
          rcases h2 with h2 | h2
          · exact Or.inl h2
          · exact Or.inr ⟨ring.getD i default, getD_mem_of_lt hi, h2.symm⟩
      · exact Or.inr h2
    · rw [if_neg hlt] at hn
      exact Or.inl hn

theorem getNodesGo_head (ring : List RingEntry) (count : ℤ) :
    ∀ fuel i acc, acc ≠ [] →
      (getNodesGo ring count fuel i acc).head? = acc.head? := by
  intro fuel
  induction fuel with
  | zero => intro i acc _; rfl
  | succ n ih =>
    intro i acc hacc
    simp only [getNodesGo]
    by_cases hlt : (acc.length : ℤ) < count
    · rw [if_pos hlt]
      by_cases hmem : (ring.getD i default).node ∈ acc
      · rw [if_pos hmem]
        exact ih _ acc hacc
      · rw [if_neg hmem]
        rw [ih _ _ (by cases acc with | nil => exact absurd rfl hacc | cons a as => simp)]
        cases acc with
        | nil => exact absurd rfl hacc
        | cons a as => simp
    · rw [if_neg hlt]

/-- A sorted reachable-shape ring with a duplicated coordinate (the spec's §9
notes equal coordinates are unlikely but possible): coordinates 1, 5, 5, 5, 9. -/
def dupRing : List RingEntry :=
  [⟨1, "a#0", "a"⟩, ⟨5, "a#1", "a"⟩, ⟨5, "a#2", "a"⟩, ⟨5, "a#3", "a"⟩,
   ⟨9, "a#4", "a"⟩]

/-- C1, counterexample: on the sorted five-entry ring with coordinates
1, 5, 5, 5, 9 and search coordinate 5, the first entry with coordinate ≥ 5 is
at index 1 (index 0 holds 1 < 5, index 1 holds 5 ≥ 5), but `_binarySearch`
returns index 2: the exact-hit branch `ring[mid].hash === hash → return mid`
stops at whatever duplicate the midpoint lands on, so the claim's "index of
the first entry whose coordinate is ≥ the given coordinate" is false. -/
theorem binarySearch_not_first_index :
    HashSorted dupRing ∧
    binarySearch dupRing 5 = 2 ∧
    hashAt dupRing 0 < 5 ∧
    5 ≤ hashAt dupRing 1 ∧
    (2 : ℤ) ≠ (1 : ℤ) := by
  refine ⟨by decide, ?_, by decide, by decide, by decide⟩
  simp [binarySearch, binarySearchLoop, dupRing, List.getD]

/-- C1 (amended): for every ring sorted non-decreasing by coordinate:
`_binarySearch` returns `-1` on the empty ring; when the given coordinate
exceeds every entry's coordinate (equivalently, the last one) it wraps and
returns index 0; otherwise it returns an in-range index whose entry carries
the least entry-coordinate that is ≥ the given coordinate, and when the
coordinates are pairwise distinct (strictly sorted) that index is exactly the
first index whose coordinate is ≥ the given coordinate.  The original "first
index" wording fails only on rings with duplicated coordinates (see the
counterexample). -/
theorem binarySearch_owner_spec (ring : List RingEntry) (hash : ℕ)
    (hsorted : HashSorted ring) :
    (ring = [] → binarySearch ring hash = -1) ∧
    (ring ≠ [] → hashAt ring (ring.length - 1) < hash →
      binarySearch ring hash = 0) ∧
    (ring ≠ [] → hash ≤ hashAt ring (ring.length - 1) →
      ∃ r : ℕ, binarySearch ring hash = (r : ℤ) ∧ r < ring.length ∧
        hash ≤ hashAt ring r ∧
        (∀ j < ring.length, hash ≤ hashAt ring j →
          hashAt ring r ≤ hashAt ring j) ∧
        (HashStrictSorted ring → ∀ j < r, hashAt ring j < hash)) := by
  refine ⟨?_, ?_, ?_⟩
  · rintro rfl
    simp [binarySearch]
  · intro hne hgt
    have hlen : 0 < ring.length := List.length_pos.mpr hne
    have hgt2 : (ring.getD (ring.length - 1) default).hash < hash := hgt
    have h02 : (ring.getD 0 default).hash ≤ (ring.getD (ring.length - 1) default).hash :=
      hashAt_mono hsorted (by omega) (by omega)
    rw [binarySearch, if_neg (by omega), if_neg (by omega), if_pos hgt2]
  · intro hne hle
    have hlen : 0 < ring.length := List.length_pos.mpr hne
    by_cases h0 : hash ≤ hashAt ring 0
    · have h02 : hash ≤ (ring.getD 0 default).hash := h0
      rw [binarySearch, if_neg (by omega), if_pos h02]
      refine ⟨0, rfl, hlen, h0, ?_, fun _ j hj => absurd hj (by omega)⟩
      intro j hj _
      exact hashAt_mono hsorted (Nat.zero_le j) hj
    · have h0n : ¬ hash ≤ (ring.getD 0 default).hash := h0
      have hle2 : hash ≤ (ring.getD (ring.length - 1) default).hash := hle
      rw [binarySearch, if_neg (by omega), if_neg h0n, if_neg (by omega)]
      obtain ⟨r, hr, hrlen, hdisj⟩ :=
        binarySearchLoop_spec ring hash hsorted hlen hle
          (((ring.length : ℤ) - 1) + 1 - 0).toNat 0 ((ring.length : ℤ) - 1)
          le_rfl le_rfl (by omega) (by omega)
          (fun j hj => absurd hj (by omega))
          (fun j hj1 hj2 => absurd hj1 (by omega))
      refine ⟨r, hr, hrlen, ?_, ?_, ?_⟩
      · rcases hdisj with h | h
        · omega
        · omega
      · intro j hj hjhash
        rcases hdisj with h | h
        · have := hashAt_mono hsorted (Nat.zero_le j) hj
          omega
        · by_cases hjr : j < r
          · have := h.2 j hjr
            omega
          · exact hashAt_mono hsorted (by omega) hj
      · intro hss j hjr
        rcases hdisj with h | h
        · have := hashAt_strict_mono hss hjr hrlen
          omega
        · exact h.2 j hjr

/-- A strictly sorted two-entry ring used to instantiate the amended C1. -/
def wRing : List RingEntry := [⟨2, "b#0", "b"⟩, ⟨7, "b#1", "b"⟩]

theorem binarySearch_owner_spec_witness :
    (wRing = [] → binarySearch wRing 5 = -1) ∧
    (wRing ≠ [] → hashAt wRing (wRing.length - 1) < 5 →
      binarySearch wRing 5 = 0) ∧
    (wRing ≠ [] → 5 ≤ hashAt wRing (wRing.length - 1) →
      ∃ r : ℕ, binarySearch wRing 5 = (r : ℤ) ∧ r < wRing.length ∧
        5 ≤ hashAt wRing r ∧
        (∀ j < wRing.length, 5 ≤ hashAt wRing j →
          hashAt wRing r ≤ hashAt wRing j) ∧
        (HashStrictSorted wRing → ∀ j < r, hashAt wRing j < 5)) :=
  binarySearch_owner_spec wRing 5 (by decide)

theorem nodup_length_le {α : Type} [DecidableEq α] {l l2 : List α}
    (hn : l.Nodup) (hs : l ⊆ l2) : l.length ≤ l2.length := by
  calc l.length = l.toFinset.card := (List.toFinset_card_of_nodup hn).symm
    _ ≤ l2.toFinset.card := Finset.card_le_card (fun x hx => by
        rw [List.mem_toFinset] at hx ⊢
        exact hs hx)
    _ ≤ l2.length := l2.toFinset_card_le

/-- C3: in every state reachable from a fresh ring by `addNode`/`removeNode`,
the ring's coordinate sequence — the one `getRingSnapshot` renders in order —
is sorted non-decreasing. -/
theorem ring_sorted_reachable (s : ConsistentHashRing) (hr : Reachable s) :
    List.Sorted (· ≤ ·) (s.ring.map RingEntry.hash) ∧
    getRingSnapshot s = s.ring.map
      (fun e => { hash := toString e.hash, vnode := e.vnode, node := e.node }) := by
  have hinv := reachable_inv hr
  exact ⟨List.pairwise_map.mpr hinv.1, rfl⟩

theorem ring_sorted_reachable_witness :
    List.Sorted (· ≤ ·)
      ((ConsistentHashRing.init 100 (fun _ => 0)).ring.map RingEntry.hash) ∧
    getRingSnapshot (ConsistentHashRing.init 100 (fun _ => 0)) =
      (ConsistentHashRing.init 100 (fun _ => 0)).ring.map
        (fun e => { hash := toString e.hash, vnode := e.vnode, node := e.node }) :=
  ring_sorted_reachable _ (Reachable.init 100 (fun _ => 0))

/-- C8: in every reachable state, a node id appears on some ring entry
exactly when it is a registry key, and every registry entry owns at least one
placement entry. -/
theorem ring_registry_agree (s : ConsistentHashRing) (hr : Reachable s) :
    (∀ n : String, (∃ e ∈ s.ring, e.node = n) ↔ mapHas s.nodeMap n = true) ∧
    (∀ p ∈ s.nodeMap, ∃ e ∈ s.ring, e.node = p.1) := by
  have hinv := reachable_inv hr
  refine ⟨?_, ?_⟩
  · intro n
    rw [mapHas_iff]
    exact hinv.2.1 n
  · intro p hp
    exact (hinv.2.1 p.1).mpr ⟨p, hp, rfl⟩

theorem ring_registry_agree_witness :
    (∀ n : String,
      (∃ e ∈ (ConsistentHashRing.init 100 (fun _ => 0)).ring, e.node = n) ↔
        mapHas (ConsistentHashRing.init 100 (fun _ => 0)).nodeMap n = true) ∧
    (∀ p ∈ (ConsistentHashRing.init 100 (fun _ => 0)).nodeMap,
      ∃ e ∈ (ConsistentHashRing.init 100 (fun _ => 0)).ring, e.node = p.1) :=
  ring_registry_agree _ (Reachable.init 100 (fun _ => 0))

/-- C4: in every reachable state, `getNode` is absent exactly on the empty
ring (equivalently, the empty registry), and any returned node id is
currently registered. -/
theorem getNode_registered (s : ConsistentHashRing) (hr : Reachable s)
    (key : String) :
    (getNode s key = none ↔ s.ring = []) ∧
    (s.ring = [] ↔ s.nodeMap = []) ∧
    (∀ n, getNode s key = some n → mapHas s.nodeMap n = true) := by
  have hinv := reachable_inv hr
  refine ⟨⟨?_, ?_⟩, ⟨?_, ?_⟩, ?_⟩
  · intro hnone
    by_contra hne
    rw [getNode_some s key hne] at hnone
    exact Option.noConfusion hnone
  · intro hE
    rw [getNode, if_pos (by rw [hE]; rfl)]
  · intro hE
    by_contra hM
    obtain ⟨p, hp⟩ := List.exists_mem_of_ne_nil s.nodeMap hM
    obtain ⟨e, he, _⟩ := (hinv.2.1 p.1).mpr ⟨p, hp, rfl⟩
    rw [hE] at he
    exact List.not_mem_nil e he
  · intro hM
    by_contra hE
    obtain ⟨e, he⟩ := List.exists_mem_of_ne_nil s.ring hE
    obtain ⟨p, hp, _⟩ := (hinv.2.1 e.node).mp ⟨e, he, rfl⟩
    rw [hM] at hp
    exact List.not_mem_nil p hp
  · intro n hn
    by_cases hne : s.ring = []
    · rw [getNode, if_pos (by rw [hne]; rfl)] at hn
      exact Option.noConfusion hn
    · rw [getNode_some s key hne] at hn
      have hidx := binarySearch_toNat_lt s.ring (hashToBigInt s key) hne
      have hmem := getD_mem_of_lt hidx
      injection hn with hn2
      rw [mapHas_iff]
      exact (hinv.2.1 n).mp ⟨_, hmem, hn2⟩

theorem getNode_registered_witness :
    (getNode (ConsistentHashRing.init 100 (fun _ => 0)) "key1" = none ↔
      (ConsistentHashRing.init 100 (fun _ => 0)).ring = []) ∧
    ((ConsistentHashRing.init 100 (fun _ => 0)).ring = [] ↔
      (ConsistentHashRing.init 100 (fun _ => 0)).nodeMap = []) ∧
    (∀ n, getNode (ConsistentHashRing.init 100 (fun _ => 0)) "key1" = some n →
      mapHas (ConsistentHashRing.init 100 (fun _ => 0)).nodeMap n = true) :=
  getNode_registered _ (Reachable.init 100 (fun _ => 0)) "key1"

theorem stateInv_nodeMap_nil {s : ConsistentHashRing} (hinv : StateInv s)
    (hE : s.ring = []) : s.nodeMap = [] := by
  by_contra hM
  obtain ⟨p, hp⟩ := List.exists_mem_of_ne_nil s.nodeMap hM
  obtain ⟨e, he, _⟩ := (hinv.2.1 p.1).mpr ⟨p, hp, rfl⟩
  rw [hE] at he
  exact List.not_mem_nil e he

theorem getNodesGo_eq_walk (ring : List RingEntry) (count : ℤ) (hc : 0 ≤ count) :
    ∀ fuel i acc, getNodesGo ring count fuel i acc =
      walkDistinctOwners count.toNat acc (ringWalk ring i fuel) := by
  intro fuel
  induction fuel with
  | zero => intro i acc; rfl
  | succ n ih =>
    intro i acc
    simp only [getNodesGo, ringWalk, walkDistinctOwners]
    by_cases hlt : (acc.length : ℤ) < count
    · rw [if_pos hlt, if_pos (show acc.length < count.toNat by omega)]
      by_cases hmem : (ring.getD i default).node ∈ acc
      · rw [if_pos hmem, if_pos hmem]
        exact ih _ _
      · rw [if_neg hmem, if_neg hmem]
        exact ih _ _
    · rw [if_neg hlt, if_neg (show ¬ acc.length < count.toNat by omega)]

theorem walkDistinctOwners_acc_mem (count : ℕ) :
    ∀ ws acc, ∀ x ∈ acc, x ∈ walkDistinctOwners count acc ws := by
  intro ws
  induction ws with
  | nil => intro acc x hx; exact hx
  | cons n rest ih =>
    intro acc x hx
    simp only [walkDistinctOwners]
    by_cases h1 : acc.length < count
    · rw [if_pos h1]
      by_cases hmem : n ∈ acc
      · rw [if_pos hmem]
        exact ih acc x hx
      · rw [if_neg hmem]
        exact ih (acc ++ [n]) x (List.mem_append_left _ hx)
    · rw [if_neg h1]
      exact hx

theorem walkDistinctOwners_coverage (count : ℕ) :
    ∀ ws acc, (walkDistinctOwners count acc ws).length < count →
      ∀ n ∈ ws, n ∈ walkDistinctOwners count acc ws := by
  intro ws
  induction ws with
  | nil => intro acc _ n hn; exact absurd hn (List.not_mem_nil n)
  | cons m rest ih =>
    intro acc hlen n hn
    rw [List.mem_cons] at hn
    revert hlen
    simp only [walkDistinctOwners]
    by_cases h1 : acc.length < count
    · rw [if_pos h1]
      by_cases hmem : m ∈ acc
      · rw [if_pos hmem]
        intro hlen
        rcases hn with rfl | hn
        · exact walkDistinctOwners_acc_mem count rest acc n hmem
        · exact ih acc hlen n hn
      · rw [if_neg hmem]
        intro hlen
        rcases hn with rfl | hn
        · exact walkDistinctOwners_acc_mem count rest (acc ++ [n]) n
            (List.mem_append_right _ (List.mem_singleton_self n))
        · exact ih (acc ++ [m]) hlen n hn
    · rw [if_neg h1]
      intro hlen
      exact absurd hlen (by omega)

theorem walkDistinctOwners_sublist (count : ℕ) :
    ∀ ws acc, ∃ t, walkDistinctOwners count acc ws = acc ++ t ∧ t.Sublist ws := by
  intro ws
  induction ws with
  | nil => intro acc; exact ⟨[], (List.append_nil acc).symm, List.nil_sublist []⟩
  | cons n rest ih =>
    intro acc
    simp only [walkDistinctOwners]
    by_cases h1 : acc.length < count
    · rw [if_pos h1]
      by_cases hmem : n ∈ acc
      · rw [if_pos hmem]
        obtain ⟨t, ht, hsub⟩ := ih acc
        exact ⟨t, ht, hsub.cons n⟩
      · rw [if_neg hmem]
        obtain ⟨t, ht, hsub⟩ := ih (acc ++ [n])
        refine ⟨n :: t, ?_, hsub.cons₂ n⟩
        rw [ht, List.append_assoc, List.singleton_append]
    · rw [if_neg h1]
      exact ⟨[], (List.append_nil acc).symm, List.nil_sublist _⟩

theorem ringWalk_mem (ring : List RingEntry) :
    ∀ fuel i k, i < ring.length → k < fuel →
      (ring.getD ((i + k) % ring.length) default).node ∈ ringWalk ring i fuel := by
  intro fuel
  induction fuel with
  | zero => intro i k _ hk; exact absurd hk (Nat.not_lt_zero k)
  | succ n ih =>
    intro i k hi hk
    cases k with
    | zero =>
      simp only [ringWalk]
      have h0 : (i + 0) % ring.length = i := by
        rw [Nat.add_zero]
        exact Nat.mod_eq_of_lt hi
      rw [h0]
      exact List.mem_cons_self _ _
    | succ k2 =>
      simp only [ringWalk]
      refine List.mem_cons_of_mem _ ?_
      have hlen : 0 < ring.length := by omega
      have h2 := ih ((i + 1) % ring.length) k2 (Nat.mod_lt _ hlen) (by omega)
      have h3 : ((i + 1) % ring.length + k2) % ring.length =
          (i + (k2 + 1)) % ring.length := by
        rw [Nat.mod_add_mod]
        congr 1
        omega
      rw [h3] at h2
      exact h2

theorem ringWalk_coverage (ring : List RingEntry) (i : ℕ)
    (hi : i < ring.length) :
    ∀ e ∈ ring, e.node ∈ ringWalk ring i ring.length := by
  intro e he
  obtain ⟨j, hj, hje⟩ := List.getElem_of_mem he
  have hgd : ring.getD j default = e := by
    rw [List.getD_eq_getElem _ _ hj]
    exact hje
  by_cases hij : i ≤ j
  · have h1 := ringWalk_mem ring ring.length i (j - i) hi (by omega)
    have h2 : (i + (j - i)) % ring.length = j := by
      rw [Nat.add_sub_cancel' hij, Nat.mod_eq_of_lt hj]
    rw [h2, hgd] at h1
    exact h1
  · push_neg at hij
    have h1 := ringWalk_mem ring ring.length i (j + ring.length - i) hi (by omega)
    have h2 : (i + (j + ring.length - i)) % ring.length = j := by
      have h4 : i + (j + ring.length - i) = j + ring.length := by omega
      rw [h4, Nat.add_mod_right, Nat.mod_eq_of_lt hj]
    rw [h2, hgd] at h1
    exact h1

/-- C2: in every reachable state: `count ≤ 0` or an empty ring yields the
empty result; otherwise `getNodes` equals the spec's walk — collect the first
occurrences of owning nodes along the clockwise node sequence that starts at
the key's owner index (`ringWalk`), until `count` distinct nodes are
collected or one full revolution completes (`walkDistinctOwners`).
Consequently the result is a subsequence of that clockwise walk (clockwise
ring order), has no duplicate nodes, its length is exactly
min(count, number of distinct registered nodes) — hence at most `count` and
at most the registry size — it falls short of `count` only when every
registered node has already been collected (the full revolution found no new
node), and every returned id is a registered node. -/
theorem getNodes_walk_spec (s : ConsistentHashRing) (hr : Reachable s)
    (key : String) (count : ℤ) :
    ((count ≤ 0 ∨ s.ring = []) → getNodes s key count = []) ∧
    (¬ (count ≤ 0 ∨ s.ring = []) →
      getNodes s key count =
        walkDistinctOwners count.toNat []
          (ringWalk s.ring (binarySearch s.ring (hashToBigInt s key)).toNat
            s.ring.length)) ∧
    (getNodes s key count).Sublist
      (ringWalk s.ring (binarySearch s.ring (hashToBigInt s key)).toNat
        s.ring.length) ∧
    (getNodes s key count).Nodup ∧
    (getNodes s key count).length ≤ count.toNat ∧
    (getNodes s key count).length ≤ s.nodeMap.length ∧
    (getNodes s key count).length = min count.toNat s.nodeMap.length ∧
    ((getNodes s key count).length < count.toNat →
      ∀ p ∈ s.nodeMap, p.1 ∈ getNodes s key count) ∧
    (∀ n ∈ getNodes s key count, mapHas s.nodeMap n = true) := by
  have hinv := reachable_inv hr
  by_cases hdeg : s.ring.length = 0 ∨ count ≤ 0
  · have hE : getNodes s key count = [] := by
      rw [getNodes, if_pos hdeg]
    rw [hE]
    refine ⟨fun _ => rfl, ?_, List.nil_sublist _, List.nodup_nil, Nat.zero_le _,
      Nat.zero_le _, ?_, ?_, by simp⟩
    · intro hcon
      push_neg at hcon
      rcases hdeg with h | h
      · exact absurd (List.length_eq_zero.mp h) hcon.2
      · exact absurd h (by omega)
    · rcases hdeg with h | h
      · have hM := stateInv_nodeMap_nil hinv (List.length_eq_zero.mp h)
        rw [hM]
        simp
      · have h0 : count.toNat = 0 := by omega
        rw [h0]
        simp
    · intro hlt p hp
      rcases hdeg with h | h
      · have hM := stateInv_nodeMap_nil hinv (List.length_eq_zero.mp h)
        rw [hM] at hp
        exact absurd hp (List.not_mem_nil p)
      · have h0 : count.toNat = 0 := by omega
        rw [h0] at hlt
        exact absurd hlt (by omega)
  · push_neg at hdeg
    have hne : s.ring ≠ [] := by
      intro hE
      rw [hE] at hdeg
      exact hdeg.1 rfl
    have hlen0 : 0 < s.ring.length := List.length_pos.mpr hne
    have hcpos : 0 < count := hdeg.2
    have hidxlt : (binarySearch s.ring (hashToBigInt s key)).toNat < s.ring.length :=
      binarySearch_toNat_lt _ _ hne
    have hwalkeq : getNodes s key count =
        walkDistinctOwners count.toNat []
          (ringWalk s.ring (binarySearch s.ring (hashToBigInt s key)).toNat
            s.ring.length) := by
      rw [getNodes_pos s key count hne (by omega),
        getNodesGo_eq_walk s.ring count (by omega) s.ring.length
          (binarySearch s.ring (hashToBigInt s key)).toNat []]
    have hnd : (getNodes s key count).Nodup := by
      rw [getNodes_pos s key count hne (by omega)]
      exact getNodesGo_nodup s.ring count s.ring.length
        (binarySearch s.ring (hashToBigInt s key)).toNat [] List.nodup_nil
    have hmem : ∀ n ∈ getNodes s key count, ∃ e ∈ s.ring, e.node = n := by
      intro n hn
      rw [getNodes_pos s key count hne (by omega)] at hn
      rcases getNodesGo_mem s.ring count hlen0 s.ring.length
        (binarySearch s.ring (hashToBigInt s key)).toNat [] hidxlt n hn with h | h
      · exact absurd h (List.not_mem_nil n)
      · exact h
    have hlencount : (getNodes s key count).length ≤ count.toNat := by
      rw [getNodes_pos s key count hne (by omega)]
      have h2 := getNodesGo_length s.ring count s.ring.length
        (binarySearch s.ring (hashToBigInt s key)).toNat []
      simp only [List.length_nil] at h2
      omega
    have hkeysub : getNodes s key count ⊆ s.nodeMap.map (fun p => p.1) := by
      intro n hn
      obtain ⟨e, he, hee⟩ := hmem n hn
      obtain ⟨p, hp, hp1⟩ := (hinv.2.1 n).mp ⟨e, he, hee⟩
      rw [List.mem_map]
      exact ⟨p, hp, hp1⟩
    have hlenmap : (getNodes s key count).length ≤ s.nodeMap.length := by
      have h3 := nodup_length_le hnd hkeysub
      rw [List.length_map] at h3
      exact h3
    have hcover : (getNodes s key count).length < count.toNat →
        ∀ p ∈ s.nodeMap, p.1 ∈ getNodes s key count := by
      intro hlt p hp
      obtain ⟨e, he, hen⟩ := (hinv.2.1 p.1).mpr ⟨p, hp, rfl⟩
      have hw : e.node ∈ ringWalk s.ring
          (binarySearch s.ring (hashToBigInt s key)).toNat s.ring.length :=
        ringWalk_coverage s.ring _ hidxlt e he
      have h5 : (walkDistinctOwners count.toNat []
          (ringWalk s.ring (binarySearch s.ring (hashToBigInt s key)).toNat
            s.ring.length)).length < count.toNat := by
        rw [← hwalkeq]
        exact hlt
      have h6 := walkDistinctOwners_coverage count.toNat _ [] h5 e.node hw
      rw [← hwalkeq] at h6
      rw [← hen]
      exact h6
    have hmineq : (getNodes s key count).length =
        min count.toNat s.nodeMap.length := by
      by_cases hlt : (getNodes s key count).length < count.toNat
      · have hall := hcover hlt
        have hsub2 : s.nodeMap.map (fun p => p.1) ⊆ getNodes s key count := by
          intro x hx
          rw [List.mem_map] at hx
          obtain ⟨p, hp, rfl⟩ := hx
          exact hall p hp
        have h5 := nodup_length_le hinv.2.2 hsub2
        rw [List.length_map] at h5
        omega
      · omega
    refine ⟨?_, fun _ => hwalkeq, ?_, hnd, hlencount, hlenmap, hmineq, hcover, ?_⟩
    · intro hcon
      rcases hcon with h | h
      · exact absurd h (by omega)
      · exact absurd h hne
    · obtain ⟨t, ht, hsub⟩ := walkDistinctOwners_sublist count.toNat
        (ringWalk s.ring (binarySearch s.ring (hashToBigInt s key)).toNat
          s.ring.length) []
      rw [hwalkeq, ht, List.nil_append]
      exact hsub
    · intro n hn
      rw [mapHas_iff]
      obtain ⟨e, he, hee⟩ := hmem n hn
      exact (hinv.2.1 n).mp ⟨e, he, hee⟩

theorem getNodes_walk_spec_witness :
    (((3 : ℤ) ≤ 0 ∨ (ConsistentHashRing.init 100 (fun _ => 0)).ring = []) →
      getNodes (ConsistentHashRing.init 100 (fun _ => 0)) "key1" 3 = []) ∧
    (¬ ((3 : ℤ) ≤ 0 ∨ (ConsistentHashRing.init 100 (fun _ => 0)).ring = []) →
      getNodes (ConsistentHashRing.init 100 (fun _ => 0)) "key1" 3 =
        walkDistinctOwners (3 : ℤ).toNat []
          (ringWalk (ConsistentHashRing.init 100 (fun _ => 0)).ring
            (binarySearch (ConsistentHashRing.init 100 (fun _ => 0)).ring
              (hashToBigInt (ConsistentHashRing.init 100 (fun _ => 0)) "key1")).toNat
            (ConsistentHashRing.init 100 (fun _ => 0)).ring.length)) ∧
    (getNodes (ConsistentHashRing.init 100 (fun _ => 0)) "key1" 3).Sublist
      (ringWalk (ConsistentHashRing.init 100 (fun _ => 0)).ring
        (binarySearch (ConsistentHashRing.init 100 (fun _ => 0)).ring
          (hashToBigInt (ConsistentHashRing.init 100 (fun _ => 0)) "key1")).toNat
        (ConsistentHashRing.init 100 (fun _ => 0)).ring.length) ∧
    (getNodes (ConsistentHashRing.init 100 (fun _ => 0)) "key1" 3).Nodup ∧
    (getNodes (ConsistentHashRing.init 100 (fun _ => 0)) "key1" 3).length ≤
      (3 : ℤ).toNat ∧
    (getNodes (ConsistentHashRing.init 100 (fun _ => 0)) "key1" 3).length ≤
      (ConsistentHashRing.init 100 (fun _ => 0)).nodeMap.length ∧
    (getNodes (ConsistentHashRing.init 100 (fun _ => 0)) "key1" 3).length =
      min (3 : ℤ).toNat (ConsistentHashRing.init 100 (fun _ => 0)).nodeMap.length ∧
    ((getNodes (ConsistentHashRing.init 100 (fun _ => 0)) "key1" 3).length <
        (3 : ℤ).toNat →
      ∀ p ∈ (ConsistentHashRing.init 100 (fun _ => 0)).nodeMap,
        p.1 ∈ getNodes (ConsistentHashRing.init 100 (fun _ => 0)) "key1" 3) ∧
    (∀ n ∈ getNodes (ConsistentHashRing.init 100 (fun _ => 0)) "key1" 3,
      mapHas (ConsistentHashRing.init 100 (fun _ => 0)).nodeMap n = true) :=
  getNodes_walk_spec _ (Reachable.init 100 (fun _ => 0)) "key1" 3

/-- C5: adding a fresh node with weight `w` succeeds and creates exactly
`max(1, round(replicas · w))` placement entries, one per virtual id
`nodeId#0 .. nodeId#(replicaCount-1)`, each placed at the coordinate obtained
by hashing its virtual id, and registers the virtual-id set under `nodeId`. -/
theorem addNode_replica_entries (s : ConsistentHashRing) (nodeId : String)
    (w : ℚ) (hfresh : mapHas s.nodeMap nodeId = false) :
    ∃ s2, addNode s nodeId w = Except.ok s2 ∧
      replicasForNode s.replicas w =
        (max 1 (jsRound ((s.replicas : ℚ) * w))).toNat ∧
      1 ≤ replicasForNode s.replicas w ∧
      s2.ring.Perm (s.ring ++ newRingEntries s nodeId w) ∧
      (newRingEntries s nodeId w).length = replicasForNode s.replicas w ∧
      s2.ring.length = s.ring.length + replicasForNode s.replicas w ∧
      mapGet s2.nodeMap nodeId =
        some ((List.range (replicasForNode s.replicas w)).map (vnodeName nodeId)) := by
  refine ⟨_, addNode_ok s nodeId w hfresh, rfl, one_le_replicasForNode _ _,
    List.mergeSort_perm _ ringLe, ?_, ?_, ?_⟩
  · rw [newRingEntries, List.length_map, List.length_range]
  · rw [(List.mergeSort_perm _ ringLe).length_eq, List.length_append,
      newRingEntries, List.length_map, List.length_range]
  · exact mapGet_mapSet_fresh _ hfresh

/-- C6: `addNode` on an already-registered id fails with the
"node already exists" error and produces no new state (the source throws
before performing any mutation, so the object is left unchanged). -/
theorem addNode_duplicate_rejected (s : ConsistentHashRing) (nodeId : String)
    (w : ℚ) (hdup : mapHas s.nodeMap nodeId = true) :
    addNode s nodeId w = Except.error ("Node " ++ nodeId ++ " already exists") ∧
    ∀ s2, addNode s nodeId w ≠ Except.ok s2 := by
  refine ⟨addNode_error s nodeId w hdup, ?_⟩
  intro s2 hok
  rw [addNode_error s nodeId w hdup] at hok
  exact Except.noConfusion hok

/-- C7: `removeNode` on an unknown id returns `false` and changes nothing;
on a registered id it returns `true`, leaves no ring (or snapshot) entry
owned by the id, clears the registry key, and a subsequent `addNode` with the
same id succeeds for any weight. -/
theorem removeNode_frees_node (s : ConsistentHashRing) (nodeId : String) :
    (mapHas s.nodeMap nodeId = false → removeNode s nodeId = (false, s)) ∧
    (mapHas s.nodeMap nodeId = true →
      (removeNode s nodeId).1 = true ∧
      (∀ e ∈ (removeNode s nodeId).2.ring, e.node ≠ nodeId) ∧
      (∀ t ∈ getRingSnapshot (removeNode s nodeId).2, t.node ≠ nodeId) ∧
      mapHas (removeNode s nodeId).2.nodeMap nodeId = false ∧
      (∀ w, ∃ s2, addNode ((removeNode s nodeId).2) nodeId w = Except.ok s2)) := by
  constructor
  · intro hno
    exact removeNode_of_none (mapGet_eq_none_iff.mpr hno)
  · intro hyes
    obtain ⟨v, hv⟩ : ∃ v, mapGet s.nodeMap nodeId = some v := by
      cases hget : mapGet s.nodeMap nodeId with
      | none =>
        rw [mapGet_eq_none_iff] at hget
        rw [hget] at hyes
        exact Bool.noConfusion hyes
      | some v => exact ⟨v, rfl⟩
    rw [removeNode_of_some hv]
    refine ⟨rfl, ?_, ?_, mapHas_mapDelete, ?_⟩
    · intro e he
      rw [List.mem_filter] at he
      simpa using he.2
    · intro t ht
      rw [getRingSnapshot, List.mem_map] at ht
      obtain ⟨e, he, rfl⟩ := ht
      rw [List.mem_filter] at he
      simpa using he.2
    · intro w
      exact ⟨_, addNode_ok _ nodeId w mapHas_mapDelete⟩

/-- C10: `addNode` accepts any weight, including zero and negative values:
whenever `round(replicas · w) ≤ 0` the replica count is clamped to 1, so a
fresh node still gets exactly one placement entry and the call succeeds. -/
theorem addNode_weight_clamped (s : ConsistentHashRing) (nodeId : String)
    (w : ℚ) (hfresh : mapHas s.nodeMap nodeId = false)
    (hw : jsRound ((s.replicas : ℚ) * w) ≤ 0) :
    ∃ s2, addNode s nodeId w = Except.ok s2 ∧
      replicasForNode s.replicas w = 1 ∧
      s2.ring.length = s.ring.length + 1 := by
  have hrc : replicasForNode s.replicas w = 1 := by
    unfold replicasForNode
    have h1 := le_max_left 1 (jsRound ((s.replicas : ℚ) * w))
    have h2 : max 1 (jsRound ((s.replicas : ℚ) * w)) ≤ 1 :=
      max_le le_rfl (le_trans hw (by omega))
    omega
  refine ⟨_, addNode_ok s nodeId w hfresh, hrc, ?_⟩
  rw [(List.mergeSort_perm _ ringLe).length_eq, List.length_append,
    newRingEntries, List.length_map, List.length_range, hrc]

theorem getNodesGo_succ_first (ring : List RingEntry) (count : ℤ)
    (fuel i : ℕ) (hc : 0 < count) :
    getNodesGo ring count (fuel + 1) i [] =
      getNodesGo ring count fuel ((i + 1) % ring.length)
        [(ring.getD i default).node] := by
  simp only [getNodesGo]
  rw [if_pos (by simpa using hc), if_neg (List.not_mem_nil _)]
  rw [List.nil_append]

/-- C9: on a non-empty ring, for any key and any `count ≥ 1`, the first
element of `getNodes(key, count)` is exactly the node `getNode(key)` returns:
the primary of the replication set is the key's owner. -/
theorem getNodes_head_eq_getNode (s : ConsistentHashRing) (key : String)
    (count : ℤ) (hne : s.ring ≠ []) (hc : 1 ≤ count) :
    ∃ n, getNode s key = some n ∧ (getNodes s key count).head? = some n := by
  refine ⟨_, getNode_some s key hne, ?_⟩
  rw [getNodes_pos s key count hne (by omega)]
  obtain ⟨k, hk⟩ : ∃ k, s.ring.length = k + 1 := by
    have := List.length_pos.mpr hne
    exact ⟨s.ring.length - 1, by omega⟩
  rw [hk, getNodesGo_succ_first s.ring count k _ (by omega)]
  rw [getNodesGo_head s.ring count k _ _ (by simp)]
  rfl

/-- A concrete non-empty ring state used to instantiate C9. -/
def wState : ConsistentHashRing :=
  { replicas := 5, hashFn := fun _ => 0, ring := wRing,
    nodeMap := [("b", ["b#0", "b#1"])] }

theorem getNodes_head_eq_getNode_witness :
    ∃ n, getNode wState "key1" = some n ∧
      (getNodes wState "key1" 2).head? = some n :=
  getNodes_head_eq_getNode wState "key1" 2 (by decide) (by decide)

theorem addNode_replica_entries_witness :
    (∃ s2, addNode (ConsistentHashRing.init 100 (fun _ => 0)) "node1" 1 =
        Except.ok s2 ∧ s2.ring.length = 100) ∧
    (∃ s2, addNode (ConsistentHashRing.init 100 (fun _ => 0)) "node1" (1/100) =
        Except.ok s2 ∧ s2.ring.length = 1) := by
  constructor
  · obtain ⟨s2, hok, _, _, _, _, hlen, _⟩ :=
      addNode_replica_entries (ConsistentHashRing.init 100 (fun _ => 0)) "node1" 1 rfl
    refine ⟨s2, hok, ?_⟩
    rw [hlen]
    have h1 : replicasForNode (ConsistentHashRing.init 100 (fun _ => 0)).replicas 1 = 100 := by
      rw [replicasForNode]
      have h2 : jsRound (((ConsistentHashRing.init 100 (fun _ => 0)).replicas : ℚ) * 1) = 100 := by
        rw [jsRound]
        norm_num [ConsistentHashRing.init]
      rw [h2]
      decide
    rw [h1]
    simp [ConsistentHashRing.init]
  · obtain ⟨s2, hok, _, _, _, _, hlen, _⟩ :=
      addNode_replica_entries (ConsistentHashRing.init 100 (fun _ => 0)) "node1"
        (1/100) rfl
    refine ⟨s2, hok, ?_⟩
    rw [hlen]
    have h1 : replicasForNode (ConsistentHashRing.init 100 (fun _ => 0)).replicas (1/100) = 1 := by
      rw [replicasForNode]
      have h2 : jsRound (((ConsistentHashRing.init 100 (fun _ => 0)).replicas : ℚ) * (1/100)) = 1 := by
        rw [jsRound]
        norm_num [ConsistentHashRing.init]
      rw [h2]
      decide
    rw [h1]
    simp [ConsistentHashRing.init]

/-- A concrete state whose registry already holds `node1`, for C6. -/
def dupState : ConsistentHashRing :=
  { replicas := 100, hashFn := fun _ => 0,
    ring := [⟨0, "node1#0", "node1"⟩], nodeMap := [("node1", ["node1#0"])] }

theorem addNode_duplicate_rejected_witness :
    addNode dupState "node1" 1 =
      Except.error ("Node " ++ "node1" ++ " already exists") ∧
    ∀ s2, addNode dupState "node1" 1 ≠ Except.ok s2 :=
  addNode_duplicate_rejected dupState "node1" 1 rfl

theorem removeNode_frees_node_witness :
    ((removeNode dupState "node1").1 = true ∧
      (∀ e ∈ (removeNode dupState "node1").2.ring, e.node ≠ "node1") ∧
      (∀ t ∈ getRingSnapshot (removeNode dupState "node1").2, t.node ≠ "node1") ∧
      mapHas (removeNode dupState "node1").2.nodeMap "node1" = false ∧
      (∀ w, ∃ s2, addNode ((removeNode dupState "node1").2) "node1" w =
        Except.ok s2)) ∧
    removeNode dupState "other" = (false, dupState) :=
  ⟨(removeNode_frees_node dupState "node1").2 rfl,
    (removeNode_frees_node dupState "other").1 rfl⟩

theorem addNode_weight_clamped_witness :
    ∃ s2, addNode (ConsistentHashRing.init 100 (fun _ => 0)) "node1" (-1) =
      Except.ok s2 ∧
      replicasForNode (ConsistentHashRing.init 100 (fun _ => 0)).replicas (-1) = 1 ∧
      s2.ring.length = (ConsistentHashRing.init 100 (fun _ => 0)).ring.length + 1 :=
  addNode_weight_clamped (ConsistentHashRing.init 100 (fun _ => 0)) "node1" (-1)
    rfl (by rw [jsRound]; norm_num [ConsistentHashRing.init])
